import Mathlib

/-!
Shallow embedding of `icon_font_to_png/icon_font.py` (class `IconFont`).

Modelling conventions:

* Python strings are `List Char` (`Str` below); comparison of strings is the
  lexicographic codepoint order, which is the order Python uses.
* Python `dict` is an insertion-ordered association list with unique keys;
  assignment `d[k] = v` is `dictUpsert` (updates in place, keeps position,
  otherwise appends), lookup `d[k]` is `dictGet` and raises `KeyError` when
  the key is absent.
* Python floats are modelled as exact rationals `ℚ`; `int(x)` on a float is
  `pyInt` (truncation toward zero).  `int(s, 16)` is modelled for plain
  strings of hexadecimal digits (the extra Python forms - surrounding
  whitespace, a sign, `0x`, underscores - play no role in this development).
* The font renderer is abstracted by a measurement function
  `m : ℕ → ℤ → ℕ × ℕ` mapping a glyph codepoint and a font pixel size to the
  measured `(width, height)` of `draw.textsize`.  In the source the font is
  `ImageFont.truetype(path, px)`; at every call site that is reachable the
  path is `self.ttf_file`, so a single measurement function suffices.
* `scale_font` builds a fresh transparent canvas and only ever *measures*
  against it (`draw.textsize`); no `draw.text` call inks it, therefore
  `image.getbbox()` is always `None`.  The model returns `none` for the box.
* The filesystem is a state `FS` (directories created, files written);
  export functions run in `PyM := ExceptT PyErr (StateM FS)` so that effects
  performed before an exception are observable.
* The stray line `Helper function to scale a font` at the top of
  `scale_font`'s body is non-executable prose (a doc line that escaped the
  docstring); it is treated as a comment.  Image pixel contents are outside
  the model; the claims under study concern control flow, errors, computed
  sizes and filesystem effects.
* The regular expression `\.(.*):before,?` is modelled exactly for selectors
  without newline characters: `re.match` succeeds iff the selector starts
  with `.` and contains `:before` later; since `.*` is greedy and the first
  match of `re.finditer` starts at position 0 and extends past the *last*
  occurrence of `:before`, `finditer` yields exactly one match whose group
  is the text between the leading dot and the last `:before`.
-/

set_option linter.unusedVariables false

/-- Python strings, as lists of characters. -/
abbrev Str := List Char

/-- Model of `os.path.commonprefix` on two strings: longest common leading run. -/
def commonPre : Str → Str → Str
  | a :: as, b :: bs => if a = b then a :: commonPre as bs else []
  | _, _ => []

/-- The literal `:before`. -/
def beforeL : Str := (":before").toList

/-- Whether `pat` occurs in `s` starting at index `i`. -/
def occursAt (pat s : Str) (i : ℕ) : Bool := pat.isPrefixOf (s.drop i)

/-- Index of the last occurrence of `pat` in `s` (the greedy `.*` of the
    source regex backtracks to the last `:before`). -/
def lastOccIdx (pat s : Str) : Option ℕ :=
  ((List.range (s.length + 1)).filter (fun i => occursAt pat s i)).getLast?

/-- Test `is_icon.match(selector)`: the selector starts with `.` and `:before`
    occurs somewhere after it. -/
def isIconSel (sel : Str) : Bool :=
  match sel with
  | '.' :: rest => (lastOccIdx beforeL rest).isSome
  | _ => false

/-- The group captured by the single `finditer` match: the text strictly
    between the leading `.` and the last occurrence of `:before`. -/
def iconName (sel : Str) : Str :=
  match sel with
  | '.' :: rest =>
    match lastOccIdx beforeL rest with
    | some i => rest.take i
    | none => []
  | _ => []

/-- A quotation-mark character (single or double quote). -/
def isQuoteCh (c : Char) : Bool := c = Char.ofNat 39 || c = '"'

/-- Strip surrounding quotes when the value matches the source regex
    `^['\"].*['\"]$` (first and last characters are quote marks and the
    value has at least two characters). -/
def stripQuotes (v : Str) : Str :=
  if 2 ≤ v.length ∧ isQuoteCh (v.headD ' ') = true ∧ isQuoteCh (v.getLastD ' ') = true
  then (v.drop 1).dropLast else v

/-- Hexadecimal digit test. -/
def isHexDigit (c : Char) : Bool :=
  (decide ('0' ≤ c) && decide (c ≤ '9')) ||
  (decide ('a' ≤ c) && decide (c ≤ 'f')) ||
  (decide ('A' ≤ c) && decide (c ≤ 'F'))

/-- Value of one hexadecimal digit. -/
def hexDigitVal (c : Char) : ℕ :=
  if '0' ≤ c ∧ c ≤ '9' then c.toNat - 48
  else if 'a' ≤ c ∧ c ≤ 'f' then c.toNat - 87
  else c.toNat - 55

/-- Model of `int(s, 16)`: `some` of the value for a nonempty all-hex-digit string,
    `none` (ValueError) otherwise. -/
def parseHex (s : Str) : Option ℕ :=
  if s = [] then none
  else if s.all isHexDigit then
    some (s.foldl (fun acc c => 16 * acc + hexDigitVal c) 0)
  else none

/-- Model of `unichr(int(val[1:], 16))` applied to a (possibly quoted) content value:
    strip quotes, drop the escape character, parse hex, range-check the
    codepoint (`chr` rejects values above `0x10FFFF`). `none` models the
    ValueError that aborts the whole `load_css`. -/
def parseVal (v : Str) : Option ℕ :=
  let v' := stripQuotes v
  match parseHex (v'.drop 1) with
  | none => none
  | some n => if n ≤ 0x10FFFF then some n else none

/-- Python dict as an association list (insertion order, unique keys). -/
abbrev Dict := List (Str × ℕ)

/-- Assignment `d[k] = v`: update in place if the key exists, else append. -/
def dictUpsert (k : Str) (v : ℕ) : Dict → Dict
  | [] => [(k, v)]
  | (k', v') :: rest => if k' = k then (k', v) :: rest else (k', v') :: dictUpsert k v rest

/-- Lookup `d[k]` as an optional lookup. -/
def dictGet (d : Dict) (k : Str) : Option ℕ :=
  match d with
  | [] => none
  | (k', v) :: rest => if k' = k then some v else dictGet rest k

/-- Keys of a dict are pairwise distinct. -/
def KeysNodup (d : Dict) : Prop := List.Pairwise (fun p q => p.1 ≠ q.1) d

/-- A parsed CSS rule: selector text and declarations `(property, value)`
    as yielded by the tinycss parser (`rule.selector.as_css()` and
    `declaration.name`, `declaration.value.as_css()`). -/
structure Rule where
  selector : Str
  decls : List (Str × Str)
deriving DecidableEq

/-- The inner loop over a rule's declarations: every `content` declaration
    is parsed (a parse failure aborts the load) and stored under the single
    extracted icon name. -/
def procDecls (name : Str) (icons : Dict) : List (Str × Str) → Option Dict
  | [] => some icons
  | (dn, dv) :: rest =>
    if dn = ("content").toList then
      match parseVal dv with
      | none => none
      | some n => procDecls name (dictUpsert name n icons) rest
    else procDecls name icons rest

/-- The values of the `content` declarations of a rule, in order. -/
def contentVals : List (Str × Str) → List Str
  | [] => []
  | (dn, dv) :: rest =>
    if dn = ("content").toList then dv :: contentVals rest else contentVals rest

/-- One iteration of the `for rule in stylesheet.rules` loop: non-icon
    selectors are skipped; for an icon rule the common prefix is updated
    from `selector[1:]` and the content declarations are processed. -/
def processRule (st : Dict × Option Str) (r : Rule) : Option (Dict × Option Str) :=
  if isIconSel r.selector then
    let rest := r.selector.drop 1
    let cp := match st.2 with
      | none => rest
      | some p => commonPre p rest
    match procDecls (iconName r.selector) st.1 r.decls with
    | none => none
    | some icons => some (icons, some cp)
  else some st

/-- Sequential processing of all rules; the first failing content value
    aborts the whole load. -/
def runRules (rules : List Rule) (st : Dict × Option Str) : Option (Dict × Option Str) :=
  match rules with
  | [] => some st
  | r :: rest =>
    match processRule st r with
    | none => none
    | some st' => runRules rest st'

/-- The icon names extracted from a stylesheet, in rule order. -/
def iconNames : List Rule → List Str
  | [] => []
  | r :: rs => if isIconSel r.selector then iconName r.selector :: iconNames rs else iconNames rs

/-- Comparison of table entries by key, the order used by
    `sorted(icons.items(), key=lambda t: t[0])`. -/
def keyLE (p q : Str × ℕ) : Prop := p.1 ≤ q.1

/-- Strict version of `keyLE`. -/
def keyLT (p q : Str × ℕ) : Prop := p.1 < q.1

instance : DecidableRel keyLE := fun p q => inferInstanceAs (Decidable (p.1 ≤ q.1))

instance : IsTotal (Str × ℕ) keyLE := ⟨fun p q => le_total p.1 q.1⟩

instance : IsTrans (Str × ℕ) keyLE := ⟨fun _ _ _ h1 h2 => le_trans h1 h2⟩

/-- The prefix-removal block: rebuild the dict with `name[len(prefix):]`
    keys (collisions overwrite, as Python dict assignment does). -/
def stripKeys (cp : Str) (icons : Dict) : Dict :=
  icons.foldl (fun acc kv => dictUpsert (kv.1.drop cp.length) kv.2 acc) []

/-- Model of `IconFont.load_css` for a parsed stylesheet (list of rules) and the
    `keep_prefix` flag (`keepPre`).  Returns the sorted icon table and the
    common prefix, or `none` when a content value fails to parse.
    `sorted` is modelled by insertion sort, which agrees with Python's
    stable sort (keys are unique). -/
def load_css (rules : List Rule) (keepPre : Bool) : Option (Dict × Str) :=
  match runRules rules ([], none) with
  | none => none
  | some (icons, cp?) =>
    let cp := cp?.getD []
    let icons' := if keepPre = false ∧ cp ≠ [] then stripKeys cp icons else icons
    some (List.insertionSort keyLE icons', cp)

/-! ### The glyph compositor: `scale_font` and the export methods -/

/-- Python `int()` applied to a float (here: an exact rational): truncation
    toward zero. -/
def pyInt (q : ℚ) : ℤ := if 0 ≤ q then ⌊q⌋ else ⌈q⌉

/-- The `scale` argument: the string `'auto'` or a numeric value. -/
inductive PyScale where
  | auto : PyScale
  | fixed : ℚ → PyScale
deriving DecidableEq

/-- State of the auto-scaling `while True` loop: the current font pixel
    size, the damping `factor` and the `iteration` counter. -/
structure AutoState where
  fontPx : ℤ
  factor : ℚ
  iteration : ℕ
deriving DecidableEq

/-- One pass of the loop body: measure, exit with the measured size when it
    fits, otherwise recompute the font from
    `int(size * size / dim * factor)` and bump the iteration counter
    (damping the factor by `0.99` every second iteration). -/
def autoStep (m : ℤ → ℕ × ℕ) (size : ℕ) (st : AutoState) : (ℕ × ℕ) ⊕ AutoState :=
  let wh := m st.fontPx
  let dim := max wh.1 wh.2
  if size < dim then
    let px := pyInt ((size : ℚ) * size / dim * st.factor)
    let it := st.iteration + 1
    Sum.inr ⟨px, if it % 2 = 0 then st.factor * (99/100) else st.factor, it⟩
  else Sum.inl wh

/-- The `while True` loop, with fuel: `none` models the loop still running
    after `fuel` passes (the source loop has no iteration bound of its
    own).  On exit it returns the final state and the last measurement. -/
def autoLoop (m : ℤ → ℕ × ℕ) (size : ℕ) : ℕ → AutoState → Option (AutoState × ℕ × ℕ)
  | 0, _ => none
  | fuel + 1, st =>
    match autoStep m size st with
    | Sum.inl wh => some (st, wh.1, wh.2)
    | Sum.inr st' => autoLoop m size fuel st'

/-- The auto-scale loop eventually exits from the given start state. -/
def autoTerminates (m : ℤ → ℕ × ℕ) (size : ℕ) (st : AutoState) : Prop :=
  ∃ fuel, (autoLoop m size fuel st).isSome = true

/-- Python exceptions that the embedded code can raise.  `loopHang` is not a
    Python exception: it marks a run of the unbounded `while True` loop that
    has not exited within the supplied fuel. -/
inductive PyErr where
  | keyError : Str → PyErr
  | nameError : Str → PyErr
  | typeError : Str → PyErr
  | loopHang : PyErr
deriving DecidableEq

instance {ε α : Type} [DecidableEq ε] [DecidableEq α] : DecidableEq (Except ε α) := fun x y =>
  match x, y with
  | Except.ok a, Except.ok b =>
    if h : a = b then isTrue (by rw [h]) else isFalse (fun hc => by cases hc; exact h rfl)
  | Except.error a, Except.error b =>
    if h : a = b then isTrue (by rw [h]) else isFalse (fun hc => by cases hc; exact h rfl)
  | Except.ok _, Except.error _ => isFalse (fun hc => by cases hc)
  | Except.error _, Except.ok _ => isFalse (fun hc => by cases hc)

/-- Filesystem state: directories that exist and files that were written. -/
structure FS where
  dirs : List Str
  files : List Str
deriving DecidableEq

/-- The effect monad of the export methods: Python exceptions over a
    filesystem state (effects performed before a raise are kept). -/
abbrev PyM := ExceptT PyErr (StateM FS)

/-- Run an export computation on a filesystem. -/
def runPy {α : Type} (c : PyM α) (fs : FS) : Except PyErr α × FS :=
  Id.run ((c.run).run fs)

/-- Lift a pure fallible result into the effect monad. -/
def liftE {α : Type} : Except PyErr α → PyM α
  | Except.ok a => pure a
  | Except.error e => throw e

/-- Model of `os.path.exists(d)`. -/
def osPathExists (d : Str) : PyM Bool := do
  let fs ← get
  pure (fs.dirs.contains d)

/-- Model of `os.makedirs(d)`. -/
def osMakedirs (d : Str) : PyM Unit :=
  modify (fun fs => { fs with dirs := d :: fs.dirs })

/-- Model of `out_image.save(path)`. -/
def imgSave (path : Str) : PyM Unit :=
  modify (fun fs => { fs with files := path :: fs.files })

/-- Model of `os.path.join` (POSIX): an absolute second component replaces the
    first; otherwise a separator is inserted unless already present. -/
def pathJoin (a b : Str) : Str :=
  if b.head? = some '/' then b
  else if a = [] ∨ a.getLast? = some '/' then a ++ b
  else a ++ '/' :: b

/-- Default filename, `if not filename: filename = icon + '.png'` - `None` and the empty
    string both trigger the default. -/
def defaultFilename (filename : Option Str) (icon : Str) : Str :=
  match filename with
  | none => icon ++ (".png").toList
  | some f => if f = [] then icon ++ (".png").toList else f

/-- A PIL bounding box `(x0, y0, x1, y1)`. -/
structure BBox where
  x0 : ℤ
  y0 : ℤ
  x1 : ℤ
  y1 : ℤ
deriving DecidableEq

/-- Subscripting a bounding box that may be `None`
    (`bbox[2] - bbox[0]` raises TypeError when `bbox` is `None`). -/
def bboxSub (b : Option BBox) : PyM BBox :=
  match b with
  | none => throw (PyErr.typeError (("NoneType object is not subscriptable").toList))
  | some bb => pure bb

/-- Model of `IconFont.scale_font`.  `icons` is `self.css_icons`, `m` the abstract
    `draw.textsize` measurement (per codepoint and font pixel size), `fuel`
    bounds the `while True` loop of the `'auto'` branch.

    The function creates a transparent `size x size` canvas and a draw
    object, computes `font = truetype(ttf, int(size * scale_factor))`, then
    measures `css_icons[icon]` (KeyError when the icon is unknown).  In the
    `'auto'` case it runs the fitting loop.  Nothing is ever drawn on the
    canvas, so `image.getbbox()` is `None`; the returned font handle is
    represented by its pixel size. -/
def scale_font (icons : Dict) (m : ℕ → ℤ → ℕ × ℕ) (icon : Str) (size : ℕ)
    (scale : PyScale) (fuel : ℕ) : Except PyErr (ℤ × ℕ × ℕ × Option BBox) :=
  let scale_factor : ℚ :=
    match scale with
    | PyScale.auto => 1
    | PyScale.fixed q => q
  let fontPx : ℤ := pyInt ((size : ℚ) * scale_factor)
  match dictGet icons icon with
  | none => Except.error (PyErr.keyError icon)
  | some ch =>
    match scale with
    | PyScale.fixed _ => Except.ok (fontPx, (m ch fontPx).1, (m ch fontPx).2, none)
    | PyScale.auto =>
      match autoLoop (m ch) size fuel ⟨fontPx, 1, 0⟩ with
      | none => Except.error PyErr.loopHang
      | some (st, w, h) => Except.ok (st.fontPx, w, h, none)

/-- Model of `IconFont.export_icon_no_wrapper`.  The call
    `scale_font(ttf=ttf, ...)` references the unbound name `ttf` (it is not
    a parameter and no module global defines it), so Python raises
    NameError while evaluating the arguments; the remainder of the body is
    transcribed below but can never run. -/
def export_icon_no_wrapper (icons : Dict) (m : ℕ → ℤ → ℕ × ℕ) (icon : Str)
    (size : ℕ) (color : Str) (scale : PyScale) (filename : Option Str)
    (export_dir : Str) (fuel : ℕ) : PyM Unit := do
  let org_size := size
  let size := max 150 size
  let fwhb ← (throw (PyErr.nameError (("ttf").toList)) : PyM (ℤ × ℕ × ℕ × Option BBox))
  -- dead code from here on: mirrors the rest of the source body
  let (_font, width, height, bbox) := fwhb
  -- image_mask / draw_mask / draw_mask.text / icon_image / putalpha: pixels
  -- `if bbox: icon_image = icon_image.crop(bbox)` - pixels only
  let bb ← bboxSub bbox
  let border_w := pyInt (((size : ℚ) - ((bb.x1) - (bb.x0))) / 2)
  let border_h := pyInt (((size : ℚ) - ((bb.y1) - (bb.y0))) / 2)
  -- out_image / paste; resize when org_size != size: pixels only
  if (← osPathExists export_dir) then pure () else osMakedirs export_dir
  imgSave (pathJoin export_dir (defaultFilename filename icon))

/-- Model of `IconFont.export_icon_with_wrapper`.

    Both `scale_font` invocations receive numeric scale factors
    (`full_scale / 2` for the inner icon, `full_scale` for the wrapper),
    never the string `'auto'`.  Because `scale_font` never draws on its
    measuring canvas, the returned `bbox` is always `None`, so the border
    computation `int((size - (bbox[2] - bbox[0])) / 2)` raises TypeError;
    were it reached, `if org_size != size:` would raise NameError
    (`org_size` is never assigned in this function). -/
def export_icon_with_wrapper (icons : Dict) (m : ℕ → ℤ → ℕ × ℕ) (icon : Str)
    (size : ℕ) (wrapper_icon : Str) (color : Str) (scale : PyScale)
    (filename : Option Str) (export_dir : Str) (fuel : ℕ) : PyM Unit := do
  let scale_factor : ℚ :=
    match scale with
    | PyScale.auto => 1
    | PyScale.fixed q => q
  let full_scale := scale_factor
  let scale_factor := full_scale / 2
  let r1 ← liftE (scale_font icons m icon size (PyScale.fixed scale_factor) fuel)
  let r2 ← liftE (scale_font icons m wrapper_icon size (PyScale.fixed full_scale) fuel)
  let (_font, width, height, bbox) := r1
  let (_font2, width2, height2, bbox2) := r2
  -- image_mask / draw_mask; draw_mask.text for the wrapper then the inner
  -- icon (their table entries exist: scale_font would have raised);
  -- icon_image / putalpha: pixels only
  -- `if bbox2: icon_image = icon_image.crop(bbox2)` - bbox2 is falsy
  let bb ← bboxSub bbox
  let border_w := pyInt (((size : ℚ) - ((bb.x1) - (bb.x0))) / 2)
  let border_h := pyInt (((size : ℚ) - ((bb.y1) - (bb.y0))) / 2)
  -- out_image / paste: pixels only
  -- `if org_size != size:` - org_size is an unbound name here
  let _ ← (throw (PyErr.nameError (("org_size").toList)) : PyM Unit)
  -- dead code from here on
  if (← osPathExists export_dir) then pure () else osMakedirs export_dir
  imgSave (pathJoin export_dir (defaultFilename filename icon))

/-- Model of `IconFont.export_icon`.  When `wrapper_icon` is the empty string the
    source calls `export_icon_with_wrapper` *without* the required
    `wrapper_icon` argument; Python raises TypeError at the call site
    before entering the callee. -/
def export_icon (icons : Dict) (m : ℕ → ℤ → ℕ × ℕ) (icon : Str) (size : ℕ)
    (color : Str) (scale : PyScale) (filename : Option Str) (export_dir : Str)
    (wrapper_icon : Str) (fuel : ℕ) : PyM Unit :=
  if wrapper_icon = ([] : Str) then
    throw (PyErr.typeError
      (("export_icon_with_wrapper missing required positional argument wrapper_icon").toList))
  else
    export_icon_with_wrapper icons m icon size wrapper_icon color scale filename export_dir fuel

/-! ### Concrete fixtures used by witnesses and counterexamples -/

/-- A one-rule stylesheet: `.icon-home:before { content: "\f101"; }`. -/
def s3decls : List (Str × Str) := [((("content").toList), (("\"\\f101\"").toList))]

/-- The one-rule stylesheet itself. -/
def s3rules : List Rule := [⟨('.') :: ((("icon-home").toList) ++ beforeL), s3decls⟩]

/-- A two-rule stylesheet whose icon names `aab` and `ac` share the common
    prefix `a`. -/
def s4rules : List Rule :=
  [⟨(".aab:before").toList, [((("content").toList), (("\"\\f101\"").toList))]⟩,
   ⟨(".ac:before").toList, [((("content").toList), (("\"\\f102\"").toList))]⟩]

/-- A two-icon table. -/
def icons0 : Dict := [((("home").toList), 61697), ((("circle").toList), 61698)]

/-- A measurement that always fits (100 x 100). -/
def m0 : ℕ → ℤ → ℕ × ℕ := fun _ _ => (100, 100)

/-- A measurement that always overflows a 150-pixel box (200 x 200). -/
def mBig : ℕ → ℤ → ℕ × ℕ := fun _ _ => (200, 200)

/-- A single-glyph measurement that never fits a 10-pixel box. -/
def mOver : ℤ → ℕ × ℕ := fun _ => (11, 11)

/-- An empty filesystem. -/
def fs0 : FS := ⟨[], []⟩

/-! ### Helper lemmas -/

/-- On nonnegative rationals `pyInt` is the floor. -/
lemma pyInt_of_nonneg {q : ℚ} (h : 0 ≤ q) : pyInt q = ⌊q⌋ := if_pos h

/-- When the loop body exits, the measurement it exits with fits. -/
lemma autoStep_inl {m : ℤ → ℕ × ℕ} {size : ℕ} {st : AutoState} {wh : ℕ × ℕ}
    (h : autoStep m size st = Sum.inl wh) : max wh.1 wh.2 ≤ size := by
  unfold autoStep at h
  by_cases hc : size < max (m st.fontPx).1 (m st.fontPx).2
  · rw [if_pos hc] at h
    exact Sum.noConfusion h
  · rw [if_neg hc] at h
    injection h with h'
    rw [← h']
    exact le_of_not_lt hc

/-- Whenever the auto-scale loop exits, the final measurement fits. -/
lemma autoLoop_fit (m : ℤ → ℕ × ℕ) (size : ℕ) :
    ∀ (fuel : ℕ) (st st' : AutoState) (w h : ℕ),
      autoLoop m size fuel st = some (st', w, h) → max w h ≤ size := by
  intro fuel
  induction fuel with
  | zero => intro st st' w h hr; exact Option.noConfusion hr
  | succ n ih =>
    intro st st' w h hr
    unfold autoLoop at hr
    cases hstep : autoStep m size st with
    | inl wh =>
      rw [hstep] at hr
      injection hr with hr'
      have hfit := autoStep_inl hstep
      have h1 : wh.1 = w := congrArg (fun t : AutoState × ℕ × ℕ => t.2.1) hr'
      have h2 : wh.2 = h := congrArg (fun t : AutoState × ℕ × ℕ => t.2.2) hr'
      rw [h1, h2] at hfit
      exact hfit
    | inr st2 =>
      rw [hstep] at hr
      exact ih st2 st' w h hr

/-- If every measurement overflows the box, the loop never exits. -/
lemma autoLoop_stuck (m : ℤ → ℕ × ℕ) (size : ℕ)
    (hm : ∀ px, size < max (m px).1 (m px).2) :
    ∀ (fuel : ℕ) (st : AutoState), autoLoop m size fuel st = none := by
  intro fuel
  induction fuel with
  | zero => intro st; rfl
  | succ n ih =>
    intro st
    unfold autoLoop autoStep
    rw [if_pos (hm st.fontPx)]
    exact ih _

/-- Closed form of `scale_font` at a fixed nonnegative scale. -/
lemma scale_font_fixed_eq (icons : Dict) (m : ℕ → ℤ → ℕ × ℕ) (icon : Str) (ch : ℕ)
    (size : ℕ) (q : ℚ) (fuel : ℕ)
    (hlk : dictGet icons icon = some ch) (hq : 0 ≤ q) :
    scale_font icons m icon size (PyScale.fixed q) fuel
      = Except.ok (⌊(size : ℚ) * q⌋, (m ch ⌊(size : ℚ) * q⌋).1,
                   (m ch ⌊(size : ℚ) * q⌋).2, none) := by
  have h0 : (0 : ℚ) ≤ (size : ℚ) * q := mul_nonneg (Nat.cast_nonneg _) hq
  simp only [scale_font, hlk]
  rw [pyInt_of_nonneg h0]

/-- The overflowing measurement really overflows a 10-pixel box. -/
lemma mOver_big : ∀ px, 10 < max (mOver px).1 (mOver px).2 := by
  intro px
  norm_num [mOver]

/-! ### Helper lemmas about `load_css` -/

/-- Wrapper around the list-prefix facts used below. -/
lemma nilPre {l : Str} : [] <+: l := List.nil_prefix

/-- Taking is a prefix. -/
lemma takePre (n : ℕ) (l : Str) : l.take n <+: l := List.take_prefix n l

/-- Reflexivity of the prefix order. -/
lemma preRfl {l : Str} : l <+: l := List.prefix_rfl

/-- Boolean prefix test versus the prefix relation. -/
lemma isPrefixOfIff {p l : Str} : p.isPrefixOf l = true ↔ p <+: l :=
  List.isPrefixOf_iff_prefix

/-- The result of `commonPre` is a prefix of its left argument. -/
lemma commonPre_pre_left : ∀ a b : Str, commonPre a b <+: a := by
  intro a
  induction a with
  | nil => intro b; cases b <;> exact nilPre
  | cons x as ih =>
    intro b
    cases b with
    | nil => exact nilPre
    | cons y bs =>
      by_cases hc : x = y
      · simp only [commonPre, if_pos hc]
        exact List.cons_prefix_cons.mpr ⟨rfl, ih bs⟩
      · simp only [commonPre, if_neg hc]
        exact nilPre

/-- A common prefix of both arguments is a prefix of their `commonPre`. -/
lemma pre_commonPre : ∀ (a b P : Str), P <+: a → P <+: b → P <+: commonPre a b := by
  intro a
  induction a with
  | nil =>
    intro b P h1 h2
    rw [List.prefix_nil.mp h1]
    exact nilPre
  | cons x as ih =>
    intro b P h1 h2
    cases b with
    | nil =>
      rw [List.prefix_nil.mp h2]
      exact nilPre
    | cons y bs =>
      cases P with
      | nil => exact nilPre
      | cons p ps =>
        obtain ⟨hpx, hps⟩ := List.cons_prefix_cons.mp h1
        obtain ⟨hpy, hqs⟩ := List.cons_prefix_cons.mp h2
        have hxy : x = y := by rw [← hpx, ← hpy]
        simp only [commonPre, if_pos hxy]
        exact List.cons_prefix_cons.mpr ⟨hpx, ih bs ps hps hqs⟩

/-- The extracted icon name is a prefix of `selector[1:]`. -/
lemma iconName_drop_pre : ∀ sel : Str, iconName sel <+: sel.drop 1 := by
  intro sel
  unfold iconName
  split
  · rename_i rest
    cases hlo : lastOccIdx beforeL rest with
    | none => exact nilPre
    | some i => exact takePre i rest
  · exact nilPre

/-- The last `true` index of a predicate that holds at `m` and nowhere
    above `m` is `m` itself, within any range reaching `m`. -/
lemma getLast_filter_range (p : ℕ → Bool) (m : ℕ) (hpm : p m = true)
    (hup : ∀ i, m < i → p i = false) :
    ∀ L, m ≤ L → ((List.range (L + 1)).filter p).getLast? = some m := by
  intro L
  induction L with
  | zero =>
    intro h0
    have hm0 : m = 0 := Nat.le_zero.mp h0
    subst hm0
    simp [List.range_succ, hpm]
  | succ n ih =>
    intro hmn
    by_cases hc : m = n + 1
    · rw [show List.range (n + 1 + 1) = List.range (n + 1) ++ [n + 1] from List.range_succ (n + 1),
          List.filter_append]
      rw [show List.filter p [n + 1] = [n + 1] by simp [hc ▸ hpm]]
      rw [List.getLast?_concat, hc]
    · have hm : m ≤ n := by omega
      rw [show List.range (n + 1 + 1) = List.range (n + 1) ++ [n + 1] from List.range_succ (n + 1),
          List.filter_append]
      rw [show List.filter p [n + 1] = [] by simp [hup (n + 1) (by omega)]]
      rw [List.append_nil]
      exact ih hm

/-- In `name ++ ":before"` the last occurrence of `:before` starts exactly
    at `name.length`, whatever `name` contains. -/
lemma lastOccIdx_concat (name : Str) :
    lastOccIdx beforeL (name ++ beforeL) = some name.length := by
  have h7 : beforeL.length = 7 := rfl
  have hlen : (name ++ beforeL).length = name.length + 7 := by
    rw [List.length_append, h7]
  have hpm : occursAt beforeL (name ++ beforeL) name.length = true := by
    unfold occursAt
    rw [List.drop_left]
    exact isPrefixOfIff.mpr preRfl
  have hup : ∀ i, name.length < i → occursAt beforeL (name ++ beforeL) i = false := by
    intro i hi
    unfold occursAt
    cases hb : beforeL.isPrefixOf ((name ++ beforeL).drop i)
    · rfl
    · exfalso
      have hp := isPrefixOfIff.mp hb
      have hle := hp.length_le
      rw [List.length_drop, hlen, h7] at hle
      omega
  unfold lastOccIdx
  rw [hlen]
  exact getLast_filter_range _ name.length hpm hup _ (by omega)

/-- A selector of the exact shape `.<name>:before` is an icon selector. -/
lemma isIconSel_concat (name : Str) : isIconSel ('.' :: (name ++ beforeL)) = true := by
  show (lastOccIdx beforeL (name ++ beforeL)).isSome = true
  rw [lastOccIdx_concat]
  rfl

/-- From a selector of the exact shape `.<name>:before` the extracted icon
    name is `name`. -/
lemma iconName_concat (name : Str) : iconName ('.' :: (name ++ beforeL)) = name := by
  show (match lastOccIdx beforeL (name ++ beforeL) with
        | some i => List.take i (name ++ beforeL)
        | none => ([] : Str)) = name
  rw [lastOccIdx_concat]
  exact List.take_left name beforeL

/-- Membership in an upserted dict. -/
lemma mem_dictUpsert {k : Str} {v : ℕ} : ∀ {d : Dict} {q : Str × ℕ},
    q ∈ dictUpsert k v d → q.1 = k ∨ q ∈ d := by
  intro d
  induction d with
  | nil =>
    intro q h
    left
    rw [List.mem_singleton.mp h]
  | cons p rest ih =>
    intro q h
    cases p with
    | mk k' v' =>
      by_cases hc : k' = k
      · simp only [dictUpsert, if_pos hc] at h
        rcases List.mem_cons.mp h with h1 | h2
        · left
          rw [h1, ← hc]
        · right
          exact List.mem_cons_of_mem _ h2
      · simp only [dictUpsert, if_neg hc] at h
        rcases List.mem_cons.mp h with h1 | h2
        · right
          rw [h1]
          exact List.mem_cons_self _ _
        · rcases ih h2 with ha | hb
          · left
            exact ha
          · right
            exact List.mem_cons_of_mem _ hb

/-- Upserting preserves key distinctness. -/
lemma keysNodup_dictUpsert (k : Str) (v : ℕ) : ∀ {d : Dict},
    KeysNodup d → KeysNodup (dictUpsert k v d) := by
  intro d
  induction d with
  | nil =>
    intro _
    simp [dictUpsert, KeysNodup]
  | cons p rest ih =>
    intro hkn
    cases p with
    | mk k' v' =>
      have hkn' := List.pairwise_cons.mp hkn
      by_cases hc : k' = k
      · simp only [dictUpsert, if_pos hc]
        exact List.pairwise_cons.mpr ⟨hkn'.1, hkn'.2⟩
      · simp only [dictUpsert, if_neg hc]
        refine List.pairwise_cons.mpr ⟨?_, ih hkn'.2⟩
        intro q hq
        rcases mem_dictUpsert hq with h1 | h2
        · rw [h1]
          exact hc
        · exact hkn'.1 q h2

/-- Every entry produced by `procDecls` either has the processed rule's
    name as key or was already present. -/
lemma mem_procDecls {name : Str} : ∀ (decls : List (Str × Str)) (icons icons' : Dict),
    procDecls name icons decls = some icons' → ∀ q ∈ icons', q.1 = name ∨ q ∈ icons := by
  intro decls
  induction decls with
  | nil =>
    intro icons icons' h q hq
    injection h with h'
    right
    rw [h']
    exact hq
  | cons d rest ih =>
    intro icons icons' h q hq
    cases d with
    | mk dn dv =>
      by_cases hc : dn = ("content").toList
      · simp only [procDecls, if_pos hc] at h
        cases hpv : parseVal dv with
        | none =>
          rw [hpv] at h
          exact Option.noConfusion h
        | some n =>
          rw [hpv] at h
          rcases ih _ _ h q hq with h1 | h2
          · left
            exact h1
          · rcases mem_dictUpsert h2 with h3 | h4
            · left
              exact h3
            · right
              exact h4
      · simp only [procDecls, if_neg hc] at h
        exact ih _ _ h q hq

/-- Processing declarations preserves key distinctness. -/
lemma keysNodup_procDecls {name : Str} : ∀ (decls : List (Str × Str)) (icons icons' : Dict),
    procDecls name icons decls = some icons' → KeysNodup icons → KeysNodup icons' := by
  intro decls
  induction decls with
  | nil =>
    intro icons icons' h hkn
    injection h with h'
    rw [← h']
    exact hkn
  | cons d rest ih =>
    intro icons icons' h hkn
    cases d with
    | mk dn dv =>
      by_cases hc : dn = ("content").toList
      · simp only [procDecls, if_pos hc] at h
        cases hpv : parseVal dv with
        | none =>
          rw [hpv] at h
          exact Option.noConfusion h
        | some n =>
          rw [hpv] at h
          exact ih _ _ h (keysNodup_dictUpsert name n hkn)
      · simp only [procDecls, if_neg hc] at h
        exact ih _ _ h hkn

/-- When a declaration list has no `content` declaration, `procDecls` is
    the identity. -/
lemma procDecls_nilContent (name : Str) : ∀ (decls : List (Str × Str)) (icons : Dict),
    contentVals decls = [] → procDecls name icons decls = some icons := by
  intro decls
  induction decls with
  | nil => intro icons _; rfl
  | cons d rest ih =>
    intro icons hcv
    cases d with
    | mk dn dv =>
      by_cases hc : dn = ("content").toList
      · exfalso
        simp only [contentVals, if_pos hc] at hcv
        exact List.cons_ne_nil _ _ hcv
      · simp only [contentVals, if_neg hc] at hcv
        simp only [procDecls, if_neg hc]
        exact ih icons hcv

/-- When the declarations carry exactly one parsing `content` value,
    `procDecls` performs exactly one upsert. -/
lemma procDecls_single (name : Str) : ∀ (decls : List (Str × Str)) (icons : Dict) (v : Str) (n : ℕ),
    contentVals decls = [v] → parseVal v = some n →
    procDecls name icons decls = some (dictUpsert name n icons) := by
  intro decls
  induction decls with
  | nil =>
    intro icons v n hcv _
    exact absurd hcv (by simp [contentVals])
  | cons d rest ih =>
    intro icons v n hcv hpv
    cases d with
    | mk dn dv =>
      by_cases hc : dn = ("content").toList
      · simp only [contentVals, if_pos hc] at hcv
        injection hcv with h1 h2
        subst h1
        simp only [procDecls, if_pos hc, hpv]
        exact procDecls_nilContent name rest _ h2
      · simp only [contentVals, if_neg hc] at hcv
        simp only [procDecls, if_neg hc]
        exact ih icons v n hcv hpv

/-- Every key of the dict built by `runRules` is an extracted icon name,
    unless it was there at the start. -/
lemma mem_runRules : ∀ (rules : List Rule) (st st' : Dict × Option Str),
    runRules rules st = some st' → ∀ q ∈ st'.1, q ∈ st.1 ∨ q.1 ∈ iconNames rules := by
  intro rules
  induction rules with
  | nil =>
    intro st st' h q hq
    injection h with h'
    left
    rw [h']
    exact hq
  | cons r rest ih =>
    intro st st' h q hq
    unfold runRules at h
    cases hpr : processRule st r with
    | none =>
      rw [hpr] at h
      exact Option.noConfusion h
    | some st1 =>
      rw [hpr] at h
      unfold processRule at hpr
      by_cases hic : isIconSel r.selector = true
      · rw [if_pos hic] at hpr
        cases hpd : procDecls (iconName r.selector) st.1 r.decls with
        | none =>
          rw [hpd] at hpr
          exact Option.noConfusion hpr
        | some icons1 =>
          rw [hpd] at hpr
          injection hpr with hpr'
          rcases ih st1 st' h q hq with h1 | h2
          · have hq1 : q ∈ icons1 := by
              rw [← hpr'] at h1
              exact h1
            rcases mem_procDecls r.decls st.1 icons1 hpd q hq1 with ha | hb
            · right
              unfold iconNames
              rw [if_pos hic, ha]
              exact List.mem_cons_self _ _
            · left
              exact hb
          · right
            unfold iconNames
            rw [if_pos hic]
            exact List.mem_cons_of_mem _ h2
      · rw [if_neg hic] at hpr
        injection hpr with hpr'
        rcases ih st1 st' h q hq with h1 | h2
        · left
          rw [← hpr'] at h1
          exact h1
        · right
          unfold iconNames
          rw [if_neg hic]
          exact h2

/-- Running the rules preserves key distinctness. -/
lemma keysNodup_runRules : ∀ (rules : List Rule) (st st' : Dict × Option Str),
    runRules rules st = some st' → KeysNodup st.1 → KeysNodup st'.1 := by
  intro rules
  induction rules with
  | nil =>
    intro st st' h hkn
    injection h with h'
    rw [← h']
    exact hkn
  | cons r rest ih =>
    intro st st' h hkn
    unfold runRules at h
    cases hpr : processRule st r with
    | none =>
      rw [hpr] at h
      exact Option.noConfusion h
    | some st1 =>
      rw [hpr] at h
      unfold processRule at hpr
      by_cases hic : isIconSel r.selector = true
      · rw [if_pos hic] at hpr
        cases hpd : procDecls (iconName r.selector) st.1 r.decls with
        | none =>
          rw [hpd] at hpr
          exact Option.noConfusion hpr
        | some icons1 =>
          rw [hpd] at hpr
          injection hpr with hpr'
          refine ih st1 st' h ?_
          rw [← hpr']
          exact keysNodup_procDecls r.decls st.1 icons1 hpd hkn
      · rw [if_neg hic] at hpr
        injection hpr with hpr'
        refine ih st1 st' h ?_
        rw [← hpr']
        exact hkn

/-- If the final common prefix is `none`, no rule was an icon rule and the
    dict is unchanged. -/
lemma runRules_cp_none : ∀ (rules : List Rule) (st st' : Dict × Option Str),
    runRules rules st = some st' → st'.2 = none → st'.1 = st.1 ∧ st.2 = none := by
  intro rules
  induction rules with
  | nil =>
    intro st st' h hn
    injection h with h'
    subst h'
    exact ⟨rfl, hn⟩
  | cons r rest ih =>
    intro st st' h hn
    unfold runRules at h
    cases hpr : processRule st r with
    | none =>
      rw [hpr] at h
      exact Option.noConfusion h
    | some st1 =>
      rw [hpr] at h
      obtain ⟨h1, h2⟩ := ih st1 st' h hn
      unfold processRule at hpr
      by_cases hic : isIconSel r.selector = true
      · rw [if_pos hic] at hpr
        cases hpd : procDecls (iconName r.selector) st.1 r.decls with
        | none =>
          rw [hpd] at hpr
          exact Option.noConfusion hpr
        | some icons1 =>
          rw [hpd] at hpr
          injection hpr with hpr'
          exfalso
          rw [← hpr'] at h2
          exact Option.noConfusion h2
      · rw [if_neg hic] at hpr
        injection hpr with hpr'
        rw [← hpr'] at h1 h2
        exact ⟨h1, h2⟩

/-- Any string `P` that prefixes every extracted icon name prefixes the
    running common prefix maintained by `runRules`. -/
lemma runRules_cp_pre (P : Str) : ∀ (rules : List Rule) (st st' : Dict × Option Str),
    (∀ n ∈ iconNames rules, P <+: n) →
    (∀ c, st.2 = some c → P <+: c) →
    runRules rules st = some st' → ∀ c, st'.2 = some c → P <+: c := by
  intro rules
  induction rules with
  | nil =>
    intro st st' _ hstart h c hc
    injection h with h'
    rw [← h'] at hc
    exact hstart c hc
  | cons r rest ih =>
    intro st st' hP hstart h c hc
    unfold runRules at h
    cases hpr : processRule st r with
    | none =>
      rw [hpr] at h
      exact Option.noConfusion h
    | some st1 =>
      rw [hpr] at h
      unfold processRule at hpr
      by_cases hic : isIconSel r.selector = true
      · have hPn : P <+: iconName r.selector := by
          apply hP
          unfold iconNames
          rw [if_pos hic]
          exact List.mem_cons_self _ _
        have hPrest : P <+: r.selector.drop 1 :=
          hPn.trans (iconName_drop_pre r.selector)
        have hPtail : ∀ n ∈ iconNames rest, P <+: n := by
          intro n hn
          apply hP
          unfold iconNames
          rw [if_pos hic]
          exact List.mem_cons_of_mem _ hn
        rw [if_pos hic] at hpr
        cases hpd : procDecls (iconName r.selector) st.1 r.decls with
        | none =>
          rw [hpd] at hpr
          exact Option.noConfusion hpr
        | some icons1 =>
          rw [hpd] at hpr
          injection hpr with hpr'
          refine ih st1 st' hPtail ?_ h c hc
          intro c' hc'
          rw [← hpr'] at hc'
          cases hsnd : st.2 with
          | none =>
            rw [hsnd] at hc'
            injection hc' with hc''
            rw [← hc'']
            exact hPrest
          | some p =>
            rw [hsnd] at hc'
            injection hc' with hc''
            rw [← hc'']
            exact pre_commonPre p (r.selector.drop 1) P (hstart p hsnd) hPrest
      · have hPtail : ∀ n ∈ iconNames rest, P <+: n := by
          intro n hn
          apply hP
          unfold iconNames
          rw [if_neg hic]
          exact hn
        rw [if_neg hic] at hpr
        injection hpr with hpr'
        refine ih st1 st' hPtail ?_ h c hc
        intro c' hc'
        rw [← hpr'] at hc'
        exact hstart c' hc'

/-- Every entry of the prefix-stripped dict is an original entry with the
    prefix length dropped from its key. -/
lemma mem_stripKeys {cp : Str} : ∀ (l : Dict) (acc : Dict) (q : Str × ℕ),
    q ∈ l.foldl (fun acc kv => dictUpsert (kv.1.drop cp.length) kv.2 acc) acc →
    q ∈ acc ∨ ∃ p ∈ l, q.1 = p.1.drop cp.length := by
  intro l
  induction l with
  | nil =>
    intro acc q h
    left
    exact h
  | cons kv rest ih =>
    intro acc q h
    rcases ih (dictUpsert (kv.1.drop cp.length) kv.2 acc) q h with h1 | h2
    · rcases mem_dictUpsert h1 with ha | hb
      · right
        exact ⟨kv, List.mem_cons_self _ _, ha⟩
      · left
        exact hb
    · obtain ⟨p, hp, hq⟩ := h2
      right
      exact ⟨p, List.mem_cons_of_mem _ hp, hq⟩

/-- The prefix-stripped dict has pairwise distinct keys. -/
lemma keysNodup_stripKeys (cp : Str) (icons : Dict) : KeysNodup (stripKeys cp icons) := by
  unfold stripKeys
  suffices h : ∀ (l : Dict) (acc : Dict), KeysNodup acc →
      KeysNodup (l.foldl (fun acc kv => dictUpsert (kv.1.drop cp.length) kv.2 acc) acc) by
    exact h icons [] List.Pairwise.nil
  intro l
  induction l with
  | nil =>
    intro acc h
    exact h
  | cons kv rest ih =>
    intro acc h
    exact ih _ (keysNodup_dictUpsert _ _ h)

/-- Destructuring of a successful `load_css`. -/
lemma load_css_eq (rules : List Rule) (kp : Bool) (t : Dict) (cp : Str)
    (hl : load_css rules kp = some (t, cp)) :
    ∃ icons cp?, runRules rules ([], none) = some (icons, cp?) ∧ cp = cp?.getD [] ∧
      t = List.insertionSort keyLE
        (if kp = false ∧ cp?.getD [] ≠ [] then stripKeys (cp?.getD []) icons else icons) := by
  unfold load_css at hl
  cases hrr : runRules rules ([], none) with
  | none =>
    rw [hrr] at hl
    exact Option.noConfusion hl
  | some st =>
    cases st with
    | mk icons cp? =>
      simp only [hrr] at hl
      injection hl with hl'
      refine ⟨icons, cp?, rfl, ?_, ?_⟩
      · exact (congrArg Prod.snd hl').symm
      · exact (congrArg Prod.fst hl').symm

/-- Key distinctness transfers along permutations. -/
lemma runRules_append : ∀ (a b : List Rule) (st : Dict × Option Str),
    runRules (a ++ b) st
      = match runRules a st with
        | none => none
        | some st' => runRules b st' := by
  intro a
  induction a with
  | nil => intro b st; rfl
  | cons r rest ih =>
    intro b st
    show (match processRule st r with
          | none => none
          | some st' => runRules (rest ++ b) st')
        = match (match processRule st r with
                 | none => none
                 | some st' => runRules rest st') with
          | none => none
          | some st' => runRules b st'
    cases hpr : processRule st r with
    | none => rfl
    | some st1 => exact ih b st1

/-- Rules that are not icon rules are skipped without any effect. -/
lemma runRules_skip : ∀ (rules : List Rule) (st : Dict × Option Str),
    (∀ r ∈ rules, isIconSel r.selector = false) → runRules rules st = some st := by
  intro rules
  induction rules with
  | nil => intro st _; rfl
  | cons r rest ih =>
    intro st h
    have hr : isIconSel r.selector = false := h r (List.mem_cons_self _ _)
    show (match processRule st r with
          | none => none
          | some st' => runRules rest st') = some st
    rw [show processRule st r = some st by
      unfold processRule
      rw [if_neg (by rw [hr]; exact Bool.false_ne_true)]]
    exact ih st (fun r' hr' => h r' (List.mem_cons_of_mem _ hr'))

lemma keysNodup_perm {l l' : Dict} (h : List.Perm l l') (hk : KeysNodup l) : KeysNodup l' :=
  (h.pairwise_iff (fun h => Ne.symm h)).mp hk

/-! ### Claims -/

/-- C1. The claim states that `export_icon` with a valid icon, positive
    size and no wrapper icon writes exactly one PNG and returns normally.
    In the source the no-wrapper branch calls `export_icon_with_wrapper`
    without its required `wrapper_icon` argument, so every such call raises
    TypeError and nothing is written: here `"home"` is in the table,
    `size = 100 > 0`, `wrapper_icon = ''`, yet the run ends in
    `TypeError` with the filesystem untouched. -/
theorem C1_export_icon_no_wrapper_crashes :
    runPy (export_icon icons0 m0 (("home").toList) 100 (("black").toList)
        PyScale.auto none (("exported").toList) ([] : Str) 7) fs0
    = (Except.error (PyErr.typeError
        (("export_icon_with_wrapper missing required positional argument wrapper_icon").toList)),
       fs0) := by
  decide

/-- C2. The claim states that `export_icon_with_wrapper` with valid icon
    and wrapper names pastes, conditionally resizes, ensures the directory,
    applies the default filename and writes one PNG.  In the source the
    border computation subscripts `bbox`, which is always `None` because
    `scale_font` never draws on the canvas it calls `getbbox()` on, so the
    call raises TypeError before any directory or file is touched (and the
    later `if org_size != size:` would raise NameError anyway, `org_size`
    being unbound in this function). -/
theorem C2_export_icon_with_wrapper_crashes :
    runPy (export_icon_with_wrapper icons0 m0 (("home").toList) 150 (("circle").toList)
        (("black").toList) PyScale.auto none (("exported").toList) 7) fs0
    = (Except.error (PyErr.typeError (("NoneType object is not subscriptable").toList)), fs0) := by
  decide

/-- C6. For a fixed numeric scale `q`, `scale_font` renders at pixel size
    `int(size * q)` - which is `⌊size * q⌋` for the nonnegative fractions
    the interface admits - measures once, and performs no iteration: the
    result is this closed formula for every fuel value. -/
theorem C6_scale_font_fixed (icons : Dict) (m : ℕ → ℤ → ℕ × ℕ) (icon : Str) (ch : ℕ)
    (size : ℕ) (q : ℚ) (fuel : ℕ)
    (hlk : dictGet icons icon = some ch) (hq : 0 ≤ q) :
    scale_font icons m icon size (PyScale.fixed q) fuel
      = Except.ok (⌊(size : ℚ) * q⌋, (m ch ⌊(size : ℚ) * q⌋).1,
                   (m ch ⌊(size : ℚ) * q⌋).2, none) :=
  scale_font_fixed_eq icons m icon ch size q fuel hlk hq

/-- Witness for C6 at a concrete input: table `icons0`, icon `home`,
    `size = 150`, `q = 1/2`, giving pixel size `⌊150 * (1/2)⌋ = 75`. -/
theorem C6_scale_font_fixed_witness :
    scale_font icons0 m0 (("home").toList) 150 (PyScale.fixed (1/2)) 0
      = Except.ok (75, 100, 100, none) := by
  have h := C6_scale_font_fixed icons0 m0 (("home").toList) 61697 150 (1/2) 0
    (by decide) (by norm_num)
  rw [h]
  norm_num [m0]

/-- C7. With `scale = 'auto'`, whenever the fitting loop of `scale_font`
    exits (i.e. the call returns a result), the final measured width and
    height satisfy `max width height ≤ size`. -/
theorem C7_scale_font_auto_fits (icons : Dict) (m : ℕ → ℤ → ℕ × ℕ) (icon : Str)
    (size fuel : ℕ) (px : ℤ) (w h : ℕ) (b : Option BBox)
    (hr : scale_font icons m icon size PyScale.auto fuel = Except.ok (px, w, h, b)) :
    max w h ≤ size := by
  cases hlk : dictGet icons icon with
  | none =>
    simp only [scale_font, hlk] at hr
    exact Except.noConfusion hr
  | some ch =>
    simp only [scale_font, hlk] at hr
    revert hr
    cases hloop : autoLoop (m ch) size fuel
        ⟨pyInt ((size : ℚ) * 1), 1, 0⟩ with
    | none => intro hr; exact Except.noConfusion hr
    | some r =>
      cases r with
      | mk st wh =>
        cases wh with
        | mk w' h' =>
          intro hr
          injection hr with hr'
          have h1 : w' = w := congrArg (fun t : ℤ × ℕ × ℕ × Option BBox => t.2.1) hr'
          have h2 : h' = h := congrArg (fun t : ℤ × ℕ × ℕ × Option BBox => t.2.2.1) hr'
          have hfit := autoLoop_fit (m ch) size fuel _ st w' h' hloop
          rw [h1, h2] at hfit
          exact hfit

/-- Witness for C7: with a measurement that always reports `100 × 100` and
    `size = 150`, the auto loop exits at once and `max 100 100 ≤ 150`. -/
theorem C7_scale_font_auto_fits_witness :
    (scale_font icons0 m0 (("home").toList) 150 PyScale.auto 1
        = Except.ok (150, 100, 100, none))
    ∧ max 100 100 ≤ 150 := by
  have hfx : scale_font icons0 m0 (("home").toList) 150 PyScale.auto 1
      = Except.ok (pyInt (((150 : ℕ) : ℚ) * 1), 100, 100, none) := rfl
  have hv : pyInt (((150 : ℕ) : ℚ) * 1) = 150 := by
    rw [pyInt_of_nonneg (by positivity)]
    norm_num
  rw [hv] at hfx
  exact ⟨hfx, C7_scale_font_auto_fits icons0 m0 (("home").toList) 150 1 150 100 100 none hfx⟩

/-- C8 counterexample.  The claim states the auto-scale loop carries a
    defensive iteration cap so that it terminates on every input.  The
    source loop is `while True` with no cap and no failure outcome: for a
    measurement that always reports `11 × 11` against `size = 10`, the loop
    never exits, for any amount of fuel. -/
theorem C8_no_cap_counterexample : ¬ autoTerminates mOver 10 ⟨10, 1, 0⟩ := by
  rintro ⟨fuel, hs⟩
  rw [autoLoop_stuck mOver 10 mOver_big fuel ⟨10, 1, 0⟩] at hs
  exact Bool.noConfusion hs

/-- C8 (amended).  The loop has no iteration cap: it exits only when the
    measured dimension fits, and for any measurement function that always
    overflows the target size it runs forever (no `ScaleConvergenceFailure`
    abort exists in the code). -/
theorem C8_no_cap_amended (m : ℤ → ℕ × ℕ) (size : ℕ) (st : AutoState)
    (hm : ∀ px, size < max (m px).1 (m px).2) :
    ∀ fuel, autoLoop m size fuel st = none :=
  fun fuel => autoLoop_stuck m size hm fuel st

/-- Witness for the amended C8 at the concrete overflowing measurement. -/
theorem C8_no_cap_amended_witness : autoLoop mOver 10 1000 ⟨10, 1, 0⟩ = none :=
  C8_no_cap_amended mOver 10 ⟨10, 1, 0⟩ mOver_big 1000

/-- C9. The claim states that an export call with an unknown icon (or
    wrapper icon) name fails with an unknown-icon-name error before any
    file is written or directory created.  On the wrapper path this holds
    (second conjunct: KeyError from the table lookup, filesystem
    untouched), but `export_icon_no_wrapper` raises NameError over the
    unbound variable `ttf` before the lookup is ever reached (first
    conjunct), so the error is not an unknown-icon-name error there. -/
theorem C9_unknown_icon_errors :
    (runPy (export_icon_no_wrapper icons0 m0 (("nope").toList) 100 (("black").toList)
        PyScale.auto none (("exported").toList) 7) fs0
      = (Except.error (PyErr.nameError (("ttf").toList)), fs0))
    ∧ (runPy (export_icon_with_wrapper icons0 m0 (("nope").toList) 150 (("circle").toList)
        (("black").toList) PyScale.auto none (("exported").toList) 7) fs0
      = (Except.error (PyErr.keyError (("nope").toList)), fs0)) := by
  constructor
  · decide
  · decide

/-- C10. On the wrapper path both `scale_font` invocations receive numeric
    scales (`full_scale / 2` and `full_scale`), never `'auto'`, so the
    auto-fit iteration never executes there: the run of
    `export_icon_with_wrapper` is independent of the loop fuel (first
    conjunct, even when the caller passed `scale = 'auto'`), as is any
    fixed-scale `scale_font` call (second conjunct).  Consequently the
    rendered dimensions are not guaranteed to fit: with `scale = 'auto'`
    the wrapper glyph is rendered at the fixed factor `1`, and a glyph
    measuring `200 × 200` against `size = 150` is returned unrefitted
    (third conjunct). -/
theorem C10_wrapper_never_auto :
    (∀ (icons : Dict) (m : ℕ → ℤ → ℕ × ℕ) (icon : Str) (size : ℕ) (wic color : Str)
        (scale : PyScale) (fn : Option Str) (dir : Str) (fuel : ℕ) (fs : FS),
      runPy (export_icon_with_wrapper icons m icon size wic color scale fn dir fuel) fs
        = runPy (export_icon_with_wrapper icons m icon size wic color scale fn dir 0) fs)
    ∧ (∀ (icons : Dict) (m : ℕ → ℤ → ℕ × ℕ) (icon : Str) (size : ℕ) (q : ℚ) (fuel : ℕ),
      scale_font icons m icon size (PyScale.fixed q) fuel
        = scale_font icons m icon size (PyScale.fixed q) 0)
    ∧ ((scale_font icons0 mBig (("circle").toList) 150 (PyScale.fixed 1) 0
        = Except.ok (150, 200, 200, none))
       ∧ 150 < 200) := by
  refine ⟨?_, ?_, ?_, by norm_num⟩
  · intro icons m icon size wic color scale fn dir fuel fs
    cases scale <;> rfl
  · intro icons m icon size q fuel
    rfl
  · have h := scale_font_fixed_eq icons0 mBig (("circle").toList) 61698 150 1 0
      (by decide) (by norm_num)
    rw [h]
    norm_num [mBig]

/-- C3 counterexample.  The claim states that for a stylesheet with exactly
    one icon rule `.<name>:before` the returned common prefix equals the
    rule's icon name.  The source sets the prefix to `selector[1:]`, which
    retains the `:before` suffix: for `.icon-home:before` the returned
    prefix is `icon-home:before`, not `icon-home` (the table still has the
    single empty-string key, since slicing past the end of the shorter name
    yields the empty string). -/
theorem C3_single_rule_counterexample :
    load_css s3rules false = some ([(([] : Str), 61697)], ("icon-home:before").toList)
    ∧ iconNames s3rules = [("icon-home").toList]
    ∧ ("icon-home:before").toList ≠ ("icon-home").toList := by
  decide

/-- C3 (amended).  For every stylesheet whose only icon rule is
    `.<name>:before` (any other rules are non-icon rules), with that rule
    carrying one parsing `content` value, the returned common prefix is the
    selector minus the leading dot - that is, `<name>:before`, not the bare
    icon name - and with `keep_prefix = false` the table has exactly one
    entry whose key is the empty string. -/
theorem C3_single_rule_amended (pre post : List Rule) (name : Str)
    (decls : List (Str × Str)) (v : Str) (n : ℕ)
    (hpre : ∀ r ∈ pre, isIconSel r.selector = false)
    (hpost : ∀ r ∈ post, isIconSel r.selector = false)
    (hcv : contentVals decls = [v]) (hpv : parseVal v = some n) :
    load_css (pre ++ ⟨'.' :: (name ++ beforeL), decls⟩ :: post) false
      = some ([(([] : Str), n)], name ++ beforeL) := by
  have hir := isIconSel_concat name
  have hrr : runRules (pre ++ ⟨'.' :: (name ++ beforeL), decls⟩ :: post) ([], none)
      = some ([(name, n)], some (name ++ beforeL)) := by
    rw [runRules_append, runRules_skip pre ([], none) hpre]
    show (match processRule ([], none) ⟨'.' :: (name ++ beforeL), decls⟩ with
          | none => none
          | some st' => runRules post st') = _
    rw [show processRule ([], none) ⟨'.' :: (name ++ beforeL), decls⟩
        = some ([(name, n)], some (name ++ beforeL)) by
      unfold processRule
      rw [if_pos hir, iconName_concat, procDecls_single name decls [] v n hcv hpv]
      rfl]
    exact runRules_skip post _ hpost
  have hne : name ++ beforeL ≠ [] := by
    intro h
    exact absurd (List.append_eq_nil.mp h).2 (by decide)
  have hdrop : name.drop (name ++ beforeL).length = [] :=
    List.drop_eq_nil_of_le (by
      rw [List.length_append]
      omega)
  unfold load_css
  rw [hrr]
  show some (List.insertionSort keyLE
      (if false = false ∧ (some (name ++ beforeL)).getD [] ≠ []
       then stripKeys ((some (name ++ beforeL)).getD []) [(name, n)]
       else [(name, n)]),
      (some (name ++ beforeL)).getD []) = some ([(([] : Str), n)], name ++ beforeL)
  rw [if_pos (⟨rfl, hne⟩ : false = false ∧ (some (name ++ beforeL)).getD [] ≠ [])]
  rw [show stripKeys ((some (name ++ beforeL)).getD []) [(name, n)]
      = [(name.drop (name ++ beforeL).length, n)] from rfl]
  rw [hdrop]
  rfl

/-- Witness for the amended C3 at the concrete one-rule stylesheet. -/
theorem C3_single_rule_amended_witness :
    load_css s3rules false = some ([(([] : Str), 61697)], ("icon-home").toList ++ beforeL) :=
  C3_single_rule_amended [] [] (("icon-home").toList) s3decls (("\"\\f101\"").toList) 61697
    (by decide) (by decide) (by decide) (by decide)

/-- C4 counterexample.  The claim states that with `keep_prefix = false` no
    table key retains the icon names' shared prefix `P` as a strict prefix.
    For the stylesheet with icon names `aab` and `ac` (both sharing the
    nonempty prefix `a`, which is also the computed common prefix), the
    resulting table keys are `ab` and `c` - and `ab` retains `a` as a
    strict prefix (`ab = a ++ b` with `b` nonempty). -/
theorem C4_strip_counterexample :
    load_css s4rules false
      = some ([((("ab").toList), 61697), ((("c").toList), 61698)], ("a").toList)
    ∧ iconNames s4rules = [("aab").toList, ("ac").toList]
    ∧ ("aab").toList = ("a").toList ++ ("ab").toList
    ∧ ("ac").toList = ("a").toList ++ ("c").toList
    ∧ ("ab").toList = ("a").toList ++ ("b").toList
    ∧ (("b").toList : Str) ≠ [] := by
  decide

/-- C4 (amended).  With `keep_prefix = false`, every key of the returned
    table is some extracted icon name with the first `|cp|` characters
    removed, where `cp` is the *returned* common prefix; any `P` prefixing
    all icon names prefixes `cp`, so `P` is removed from every key's start
    - but a key may still coincidentally begin with `P` again. -/
theorem C4_strip_amended (rules : List Rule) (P : Str) (t : Dict) (cp : Str)
    (hl : load_css rules false = some (t, cp))
    (hP : ∀ n ∈ iconNames rules, P <+: n) :
    ∀ kv ∈ t, (∃ n ∈ iconNames rules, kv.1 = n.drop cp.length) ∧ P <+: cp := by
  obtain ⟨icons, cp?, hrr, hcp, ht⟩ := load_css_eq rules false t cp hl
  intro kv hkv
  rw [ht] at hkv
  have hkv' : kv ∈ (if false = false ∧ cp?.getD [] ≠ []
      then stripKeys (cp?.getD []) icons else icons) :=
    (List.perm_insertionSort keyLE _).mem_iff.mp hkv
  cases hcpo : cp? with
  | none =>
    have hicons : icons = [] :=
      (runRules_cp_none rules ([], none) (icons, cp?) hrr (by rw [hcpo])).1
    exfalso
    rw [hcpo] at hkv'
    rw [if_neg (by simp)] at hkv'
    rw [hicons] at hkv'
    exact List.not_mem_nil kv hkv'
  | some c =>
    have hPc : P <+: c := by
      refine runRules_cp_pre P rules ([], none) (icons, cp?) hP ?_ hrr c (by rw [hcpo])
      intro c' hc'
      exact Option.noConfusion hc'
    have hcpc : cp = c := by rw [hcp, hcpo]; rfl
    refine ⟨?_, by rw [hcpc]; exact hPc⟩
    rw [hcpo] at hkv'
    by_cases hcnil : c = []
    · rw [if_neg (by simp [hcnil])] at hkv'
      rcases mem_runRules rules ([], none) (icons, cp?) hrr kv hkv' with h1 | h2
      · exact absurd h1 (List.not_mem_nil kv)
      · refine ⟨kv.1, h2, ?_⟩
        rw [hcpc, hcnil]
        simp
    · rw [if_pos ⟨rfl, hcnil⟩] at hkv'
      rcases mem_stripKeys icons [] kv hkv' with h1 | h2
      · exact absurd h1 (List.not_mem_nil kv)
      · obtain ⟨p, hp, hkey⟩ := h2
        rcases mem_runRules rules ([], none) (icons, cp?) hrr p hp with ha | hb
        · exact absurd ha (List.not_mem_nil p)
        · refine ⟨p.1, hb, ?_⟩
          rw [hcpc]
          exact hkey

/-- Witness for the amended C4 at the two-rule stylesheet: the key `ab`
    arises from the name `aab` with the returned prefix `a` dropped. -/
theorem C4_strip_amended_witness :
    (∃ n ∈ iconNames s4rules, ((("ab").toList : Str), 61697).1
        = n.drop (("a").toList).length)
    ∧ (("a").toList : Str) <+: ("a").toList := by
  have h := C4_strip_amended s4rules (("a").toList)
    [((("ab").toList), 61697), ((("c").toList), 61698)] (("a").toList)
    (by decide) (by decide)
  exact h ((("ab").toList), 61697) (by decide)

/-- C5. For every stylesheet and every `keep_prefix` flag, a successful
    `load_css` returns its icon table with keys in strictly ascending
    lexicographic (codepoint) order, whatever the rule order was. -/
theorem C5_sorted_keys (rules : List Rule) (kp : Bool) (t : Dict) (cp : Str)
    (hl : load_css rules kp = some (t, cp)) : List.Pairwise keyLT t := by
  obtain ⟨icons, cp?, hrr, hcp, ht⟩ := load_css_eq rules kp t cp hl
  have hkn : KeysNodup icons :=
    keysNodup_runRules rules ([], none) (icons, cp?) hrr List.Pairwise.nil
  have hkn' : KeysNodup (if kp = false ∧ cp?.getD [] ≠ []
      then stripKeys (cp?.getD []) icons else icons) := by
    split
    · exact keysNodup_stripKeys _ icons
    · exact hkn
  rw [ht]
  have hs := List.sorted_insertionSort keyLE
    (if kp = false ∧ cp?.getD [] ≠ [] then stripKeys (cp?.getD []) icons else icons)
  have hperm := List.perm_insertionSort keyLE
    (if kp = false ∧ cp?.getD [] ≠ [] then stripKeys (cp?.getD []) icons else icons)
  have hknt : KeysNodup (List.insertionSort keyLE
      (if kp = false ∧ cp?.getD [] ≠ [] then stripKeys (cp?.getD []) icons else icons)) :=
    keysNodup_perm hperm.symm hkn'
  exact (List.Pairwise.and hs hknt).imp (fun h => lt_of_le_of_ne h.1 h.2)

/-- Witness for C5: the table computed from the two-rule stylesheet is
    strictly sorted by key. -/
theorem C5_sorted_keys_witness :
    List.Pairwise keyLT [((("ab").toList), 61697), ((("c").toList), 61698)] :=
  C5_sorted_keys s4rules false [((("ab").toList), 61697), ((("c").toList), 61698)]
    (("a").toList) (by decide)
